import Mathlib

/-
Shallow embedding of the residence-time ACF tool (resacf/resacf.py).

Boolean selection sequences are modelled as List Bool, numpy integer arrays
as List Int / List Nat.  numpy np.diff on a boolean array is elementwise xor
of consecutive entries, so the jump positions of a sequence are the indices
i with 1 <= i < F whose value differs from the value at i - 1.  Slice
assignment bool_array[a:b] = True is modelled by an index-aware map.
Python exceptions are modelled with Except String; numpy floating point
division is total and never raises, which the NFloat type records exactly
(integer-valued data divided by zero gives nan or a signed infinity).
-/

/-- Index-aware map, used to model numpy slice assignment and slice updates.
The first argument receives the absolute index of each element. -/
def mapIdxFrom (f : Nat → α → α) : Nat → List α → List α
  | _, [] => []
  | k, a :: rest => f k a :: mapIdxFrom f (k + 1) rest

/-- Model of bool_array[a:b] = True. -/
def setRangeTrue (l : List Bool) (a b : Nat) : List Bool :=
  mapIdxFrom (fun i x => if a ≤ i ∧ i < b then true else x) 0 l

/-- Model of the numpy slice xs[0::2]: every second element starting at 0. -/
def everyOther : List α → List α
  | [] => []
  | [a] => [a]
  | a :: _ :: rest => a :: everyOther rest

/-- Model of np.diff on an integer index array: differences of consecutive
entries (truncated Nat subtraction; all uses are on increasing lists). -/
def zipDiff (xs : List Nat) : List Nat :=
  List.zipWith (fun b a => b - a) xs.tail xs

/-- Model of np.argwhere(np.diff(bool_array)).flatten() + 1: the sorted list
of indices at which the sequence changes value relative to the previous
frame (resacf.py lines 53, 67, 81). -/
def jumps (l : List Bool) : List Nat :=
  ((List.range (l.length - 1)).filter
    (fun i => l.getD (i + 1) false != l.getD i false)).map (· + 1)

/-- Index list used by get_lengths_of_True_spans: the jumps, with 0 and the
sequence length added as extra boundaries when outer_spans is set
(resacf.py lines 53-55). -/
def spanIndices (l : List Bool) (outer_spans : Bool) : List Nat :=
  if outer_spans then 0 :: jumps l ++ [l.length] else jumps l

/-- Body of get_lengths_of_True_spans (resacf.py lines 50-62) after the
non-emptiness assert.  The Python guard is written len(indices >= 2); the
comparison is elementwise, so the guard is true exactly when the index list
is non-empty, which is what the embedding tests. -/
def get_lengths_of_True_spans (l : List Bool) (outer_spans : Bool) : List Nat :=
  let indices := spanIndices l outer_spans
  if 0 < indices.length then
    everyOther ((zipDiff indices).drop
      (if l.getD (indices.getD 0 0) false then 0 else 1))
  else []

/-- get_lengths_of_True_spans including its assert len(bool_array) > 0:
an empty input raises (modelled as Except.error). -/
def get_lengths_of_True_spans_run (l : List Bool) (outer_spans : Bool) :
    Except String (List Nat) :=
  if 0 < l.length then Except.ok (get_lengths_of_True_spans l outer_spans)
  else Except.error "AssertionError"

/-- Pairs of consecutive jumps whose distance is at most max_False_span
(resacf.py lines 67-71: jumps[small_spans] zipped with jumps[small_spans+1]). -/
def smallPairs (l : List Bool) (max_False_span : Int) : List (Nat × Nat) :=
  ((jumps l).zip (jumps l).tail).filter
    (fun p => ((p.2 : Int) - (p.1 : Int)) ≤ max_False_span)

/-- Model of remove_small_False_spans (resacf.py lines 65-75): for each
selected consecutive-jump pair, if the value at the left jump is currently
False, set the half-open index range to True. -/
def remove_small_False_spans (l : List Bool) (max_False_span : Int) : List Bool :=
  (smallPairs l max_False_span).foldl
    (fun arr p => if arr.getD p.1 false = false then setRangeTrue arr p.1 p.2 else arr) l

/-- Model of delay_true_spans (resacf.py lines 78-88): the jump list with the
array length appended is paired consecutively; for each pair whose left
index currently holds False, the range from that index to
min(index + delay, length) is set to True.  Only the left component of each
pair is used, exactly as in the source. -/
def delay_true_spans (l : List Bool) (delay : Nat) : List Bool :=
  let js := jumps l ++ [l.length]
  (js.dropLast.zip js.tail).foldl
    (fun arr p =>
      if arr.getD p.1 false = false then
        setRangeTrue arr p.1 (min (p.1 + delay) l.length)
      else arr) l

/-- Model of add_acf_from_span_lengths (resacf.py lines 91-94):
acf[:L] += L - t[:L] for each span length L. -/
def add_acf_from_span_lengths (t : List Int) (acf : List Int)
    (span_lengths : List Nat) : List Int :=
  span_lengths.foldl
    (fun a L =>
      mapIdxFrom (fun i x => if i < L then x + ((L : Int) - t.getD i 0) else x) 0 a)
    acf

/-- Value of one entry of a numpy float array as produced by this program:
either an exact finite value (the integer data here is exactly
representable), an infinity, or nan.  Division of a finite nonzero value by
zero gives a signed infinity, 0/0 gives nan; numpy emits a RuntimeWarning
in both cases but does not raise. -/
inductive NFloat : Type where
  | finite (q : ℚ)
  | inf
  | negInf
  | nan
deriving DecidableEq

/-- Model of acf.astype(float) / norm (resacf.py line 137) with numpy
semantics: dividing by a zero normalisation produces nan or infinity
entries and proceeds; it does not raise. -/
def normalize_block (acf : List Int) (norm : Nat) : List NFloat :=
  if norm = 0 then
    acf.map (fun x =>
      if x = 0 then NFloat.nan else if 0 < x then NFloat.inf else NFloat.negInf)
  else
    acf.map (fun x => NFloat.finite ((x : ℚ) / (norm : ℚ)))

/-- Gap handling switch (resacf.py lines 126-130): fill small False spans,
or delay True spans, only when max_False_span > 0. -/
def gapPolicy (max_False_span : Int) (delay : Bool) (sel : List Bool) : List Bool :=
  if 0 < max_False_span then
    if delay then delay_true_spans sel max_False_span.toNat
    else remove_small_False_spans sel max_False_span
  else sel

/-- One atom of the inner block loop (resacf.py lines 122-135): apply the
gap policy, extract span lengths (through the asserting entry point), add
their sum to the normalisation counter and their triangular contributions
to the ACF buffer. -/
def blockStep (t : List Int) (max_False_span : Int) (outer delay : Bool)
    (acc : List Int × Nat) (sel : List Bool) : Except String (List Int × Nat) := do
  let spans ← get_lengths_of_True_spans_run (gapPolicy max_False_span delay sel) outer
  pure (add_acf_from_span_lengths t acc.1 spans, acc.2 + spans.sum)

/-- The unnormalised per-block accumulation (resacf.py lines 119-135),
starting from a zero buffer and zero normalisation counter.  The per-atom
boolean selection sequences of the block are taken as input; building them
from the parsed table is I/O plumbing outside the algorithmic core. -/
def calc_block (t : List Int) (sels : List (List Bool)) (max_False_span : Int)
    (outer delay : Bool) : Except String (List Int × Nat) :=
  sels.foldlM (blockStep t max_False_span outer delay) (List.replicate t.length 0, 0)

/-- One full block of calc_acf_from_select_data: accumulate, then normalise
by the block counter with numpy division semantics (resacf.py lines 119-137). -/
def calc_block_run (t : List Int) (sels : List (List Bool)) (max_False_span : Int)
    (outer delay : Bool) : Except String (List NFloat) := do
  let r ← calc_block t sels max_False_span outer delay
  pure (normalize_block r.1 r.2)

/-- The per-block normalised ACFs of all blocks (resacf.py lines 115-138). -/
def calc_acf_blocks (t : List Int) (blocks : List (List (List Bool)))
    (max_False_span : Int) (outer delay : Bool) : Except String (List (List NFloat)) :=
  match blocks with
  | [] => Except.ok []
  | sels :: rest => do
    let row ← calc_block_run t sels max_False_span outer delay
    let rows ← calc_acf_blocks t rest max_False_span outer delay
    pure (row :: rows)

/-- The start indices actually converted by delay_true_spans: walking the
jump indices from left to right, a jump is filled when its original value
is False and it is not already inside the window of a previously filled
jump. -/
def filledStarts (l : List Bool) (d : Nat) : List Nat :=
  (jumps l).foldl
    (fun acc a =>
      if l.getD a false = false ∧ ∀ b ∈ acc, ¬(b ≤ a ∧ a < b + d) then acc ++ [a]
      else acc) []

/-- A maximal False run of l occupying the half-open index interval [s, e),
lying strictly between two True runs, of length at most m. -/
def IsInteriorSmallFalseRun (l : List Bool) (m : Int) (s e : Nat) : Prop :=
  0 < s ∧ s < e ∧ e < l.length ∧ ((e : Int) - (s : Int)) ≤ m ∧
    (∀ i < e, s ≤ i → l.getD i false = false) ∧
    l.getD (s - 1) false = true ∧ l.getD e false = true

instance (l : List Bool) (m : Int) (s e : Nat) :
    Decidable (IsInteriorSmallFalseRun l m s e) := by
  unfold IsInteriorSmallFalseRun; infer_instance

/-- Model of numpy ndarray.mean over a vector of real values. -/
noncomputable def np_mean (xs : List ℝ) : ℝ := xs.sum / (xs.length : ℝ)

/-- Model of numpy ndarray.std over a vector of real values: the square
root of the mean squared deviation.  The numpy default ddof = 0 is used by
the source (resacf.py line 142), so the divisor is the number of entries. -/
noncomputable def np_std (xs : List ℝ) : ℝ :=
  Real.sqrt ((xs.map (fun x => (x - np_mean xs) ^ 2)).sum / (xs.length : ℝ))

/-- Real value of a finite NFloat entry; infinities and nan are mapped to a
junk value and are excluded by the hypotheses of the theorems using this. -/
noncomputable def NFloat.toRealD : NFloat → ℝ
  | NFloat.finite q => (q : ℝ)
  | _ => 0

/-- Elementwise cross-block mean, acf_blocks.mean(axis=0) at index j
(resacf.py line 141). -/
noncomputable def acf_blocks_mean (rows : List (List NFloat)) (j : Nat) : ℝ :=
  np_mean (rows.map (fun r => (r.getD j NFloat.nan).toRealD))

/-- Elementwise cross-block standard deviation, acf_blocks.std(axis=0) at
index j (resacf.py line 142). -/
noncomputable def acf_blocks_std (rows : List (List NFloat)) (j : Nat) : ℝ :=
  np_std (rows.map (fun r => (r.getD j NFloat.nan).toRealD))

/-! Basic facts about the list helpers. -/

theorem mapIdxFrom_length (f : Nat → α → α) : ∀ (k : Nat) (l : List α),
    (mapIdxFrom f k l).length = l.length
  | _, [] => rfl
  | k, _ :: rest => by simp [mapIdxFrom, mapIdxFrom_length f (k + 1) rest]

theorem mapIdxFrom_getD (f : Nat → α → α) (d : α) : ∀ (l : List α) (k i : Nat),
    (mapIdxFrom f k l).getD i d = if i < l.length then f (k + i) (l.getD i d) else d
  | [], k, i => by simp [mapIdxFrom]
  | a :: rest, k, 0 => by simp [mapIdxFrom]
  | a :: rest, k, i + 1 => by
    have h : k + 1 + i = k + (i + 1) := by omega
    simp only [mapIdxFrom, List.getD_cons_succ, List.length_cons,
      mapIdxFrom_getD f d rest (k + 1) i, h, Nat.add_lt_add_iff_right]

theorem setRangeTrue_length (l : List Bool) (a b : Nat) :
    (setRangeTrue l a b).length = l.length := mapIdxFrom_length _ 0 l

theorem setRangeTrue_getD (l : List Bool) (a b j : Nat) :
    (setRangeTrue l a b).getD j false =
      if a ≤ j ∧ j < b ∧ j < l.length then true else l.getD j false := by
  unfold setRangeTrue
  rw [mapIdxFrom_getD]
  by_cases hl : j < l.length
  · by_cases hab : a ≤ j ∧ j < b
    · simp [hl, hab]
    · simp only [Nat.zero_add, hl, if_true]
      rw [if_neg hab, if_neg (by tauto)]
  · rw [if_neg hl, if_neg (by tauto), List.getD_eq_default]
    omega

theorem list_eq_of_getD {α : Type} (d : α) : ∀ (l1 l2 : List α), l1.length = l2.length →
    (∀ j, l1.getD j d = l2.getD j d) → l1 = l2
  | [], [], _, _ => rfl
  | [], _ :: _, h, _ => by simp at h
  | _ :: _, [], h, _ => by simp at h
  | a :: l1, b :: l2, h, hj => by
    have h0 := hj 0
    simp only [List.getD_cons_zero] at h0
    have ht := list_eq_of_getD d l1 l2 (by simpa using h)
      (fun j => by simpa using hj (j + 1))
    rw [h0, ht]

theorem everyOther_sum_le : ∀ xs : List Nat, (everyOther xs).sum ≤ xs.sum
  | [] => le_refl _
  | [_] => le_refl _
  | a :: b :: rest => by
    simp only [everyOther, List.sum_cons]
    have := everyOther_sum_le rest
    omega

theorem everyOther_concat_sum_le : ∀ (xs : List Nat) (z : Nat),
    (everyOther xs).sum ≤ (everyOther (xs ++ [z])).sum
  | [], z => by simp [everyOther]
  | [a], z => by simp [everyOther]
  | a :: b :: rest, z => by
    have := everyOther_concat_sum_le rest z
    simp only [everyOther, List.cons_append, List.append_eq, List.sum_cons] at this ⊢
    omega

theorem everyOther_mem : ∀ (xs : List α) (x : α), x ∈ everyOther xs → x ∈ xs
  | [], _, h => h
  | [_], _, h => h
  | a :: b :: rest, x, h => by
    simp only [everyOther, List.mem_cons] at h ⊢
    rcases h with h | h
    · exact Or.inl h
    · exact Or.inr (Or.inr (everyOther_mem rest x h))

theorem drop_sum_le (xs : List Nat) (k : Nat) : (xs.drop k).sum ≤ xs.sum := by
  conv_rhs => rw [← List.take_append_drop k xs]
  rw [List.sum_append]
  omega

theorem zipDiff_nil : zipDiff [] = [] := rfl

theorem zipDiff_single (x : Nat) : zipDiff [x] = [] := rfl

theorem zipDiff_cons2 (x y : Nat) (ys : List Nat) :
    zipDiff (x :: y :: ys) = (y - x) :: zipDiff (y :: ys) := rfl

theorem zipDiff_sum : ∀ (xs : List Nat) (x : Nat), List.Pairwise (· ≤ ·) (x :: xs) →
    (zipDiff (x :: xs)).sum + x = xs.getLastD x
  | [], x, _ => by simp [zipDiff_single]
  | y :: ys, x, h => by
    rw [zipDiff_cons2, List.sum_cons, List.getLastD_cons]
    have hxy : x ≤ y := (List.pairwise_cons.mp h).1 y (by simp)
    have := zipDiff_sum ys y (List.pairwise_cons.mp h).2
    omega

theorem zipDiff_concat : ∀ (xs : List Nat) (x z : Nat),
    zipDiff (x :: (xs ++ [z])) = zipDiff (x :: xs) ++ [z - xs.getLastD x]
  | [], x, z => by simp [zipDiff_single, zipDiff_cons2]
  | y :: ys, x, z => by
    have ih := zipDiff_concat ys y z
    simp only [List.cons_append, zipDiff_cons2, List.getLastD_cons, ih]

theorem zipDiff_pos : ∀ (xs : List Nat), List.Pairwise (· < ·) xs →
    ∀ z ∈ zipDiff xs, 0 < z
  | [], _, z, hz => by simp [zipDiff_nil] at hz
  | [x], _, z, hz => by simp [zipDiff_single] at hz
  | x :: y :: ys, h, z, hz => by
    rw [zipDiff_cons2] at hz
    rcases List.mem_cons.mp hz with h1 | h1
    · have hxy : x < y := (List.pairwise_cons.mp h).1 y (by simp)
      omega
    · exact zipDiff_pos (y :: ys) (List.pairwise_cons.mp h).2 z h1

theorem foldl_length_preserved {α β : Type} (step : List β → α → List β)
    (hstep : ∀ arr p, (step arr p).length = arr.length) :
    ∀ (ps : List α) (arr : List β), (ps.foldl step arr).length = arr.length
  | [], _ => rfl
  | p :: ps, arr => by
    rw [List.foldl_cons, foldl_length_preserved step hstep ps (step arr p), hstep]

/-! Structure of the jump index list. -/

theorem mem_jumps (l : List Bool) (a : Nat) :
    a ∈ jumps l ↔ 1 ≤ a ∧ a < l.length ∧ l.getD a false ≠ l.getD (a - 1) false := by
  unfold jumps
  simp only [List.mem_map, List.mem_filter, List.mem_range, bne_iff_ne]
  constructor
  · rintro ⟨i, ⟨hir, hne⟩, rfl⟩
    exact ⟨by omega, by omega, by simpa using hne⟩
  · rintro ⟨h1, h2, hne⟩
    refine ⟨a - 1, ⟨by omega, ?_⟩, by omega⟩
    have h : a - 1 + 1 = a := by omega
    rw [h]
    exact hne

theorem jumps_sorted (l : List Bool) : List.Pairwise (· < ·) (jumps l) := by
  unfold jumps
  exact List.Pairwise.map _ (fun a b h => by omega)
    (((List.sorted_lt_range _).filter _))

theorem jumps_head_min (l : List Bool) (a : Nat) (rest : List Nat)
    (h : jumps l = a :: rest) : ∀ c ∈ jumps l, a ≤ c := by
  intro c hc
  rw [h] at hc
  rcases List.mem_cons.mp hc with rfl | hc2
  · exact le_refl _
  · have hs := jumps_sorted l
    rw [h] at hs
    exact le_of_lt ((List.pairwise_cons.mp hs).1 c hc2)

theorem const_run (l : List Bool) (a : Nat) :
    ∀ (i : Nat), a ≤ i → i < l.length → (∀ c, a < c → c ≤ i → c ∉ jumps l) →
      l.getD i false = l.getD a false := by
  intro i
  induction i with
  | zero =>
    intro h _ _
    have h0 : a = 0 := by omega
    rw [h0]
  | succ n ih =>
    intro hai hlen hnoj
    by_cases han : a = n + 1
    · rw [han]
    · have hmem : (n + 1) ∉ jumps l := hnoj (n + 1) (by omega) (le_refl _)
      rw [mem_jumps] at hmem
      push_neg at hmem
      have heq : l.getD (n + 1) false = l.getD n false := by
        have := hmem (by omega) hlen
        simpa using this
      rw [heq]
      exact ih (by omega) (by omega) (fun c hc1 hc2 => hnoj c hc1 (by omega))

theorem head_jump_flip (l : List Bool) (a : Nat) (rest : List Nat)
    (h : jumps l = a :: rest) : l.getD a false = !(l.getD 0 false) := by
  have hmem : a ∈ jumps l := by rw [h]; exact List.mem_cons_self a rest
  rw [mem_jumps] at hmem
  obtain ⟨h1, h2, hne⟩ := hmem
  have hconst : l.getD (a - 1) false = l.getD 0 false := by
    apply const_run l 0 (a - 1) (by omega) (by omega)
    intro c hc1 hc2 hcm
    have := jumps_head_min l a rest h c hcm
    omega
  rw [hconst] at hne
  cases hb : l.getD a false <;> cases hb0 : l.getD 0 false <;> simp_all

/-! Consecutive pairs of a strictly sorted list. -/

theorem zip_tail_spec : ∀ (J : List Nat), List.Pairwise (· < ·) J →
    ∀ p ∈ J.zip J.tail, p.1 ∈ J ∧ p.2 ∈ J ∧ p.1 < p.2 ∧ ∀ c ∈ J, ¬(p.1 < c ∧ c < p.2)
  | [], _, p, hp => by simp at hp
  | [x], _, p, hp => by simp at hp
  | x :: y :: t, h, p, hp => by
    have hzip : (x :: y :: t).zip (x :: y :: t).tail =
        (x, y) :: ((y :: t).zip ((y :: t).tail)) := rfl
    rw [hzip] at hp
    have hx := List.pairwise_cons.mp h
    rcases List.mem_cons.mp hp with rfl | hp2
    · refine ⟨by simp, by simp, hx.1 y (by simp), ?_⟩
      rintro c hc ⟨h1, h2⟩
      rcases List.mem_cons.mp hc with rfl | hc2
      · exact absurd h1 (lt_irrefl _)
      · rcases List.mem_cons.mp hc2 with rfl | hc3
        · exact absurd h2 (lt_irrefl _)
        · have := (List.pairwise_cons.mp hx.2).1 c hc3
          omega
    · have ih := zip_tail_spec (y :: t) hx.2 p hp2
      refine ⟨List.mem_cons_of_mem x ih.1, List.mem_cons_of_mem x ih.2.1, ih.2.2.1, ?_⟩
      intro c hc hcc
      rcases List.mem_cons.mp hc with rfl | hc2
      · have : c < p.1 := hx.1 p.1 ih.1
        omega
      · exact ih.2.2.2 c hc2 hcc

theorem zip_tail_intro : ∀ (J : List Nat), List.Pairwise (· < ·) J →
    ∀ (a b : Nat), a ∈ J → b ∈ J → a < b → (∀ c ∈ J, ¬(a < c ∧ c < b)) →
      (a, b) ∈ J.zip J.tail
  | [], _, a, _, ha, _, _, _ => by simp at ha
  | [x], _, a, b, ha, hb, hab, _ => by
    simp only [List.mem_singleton] at ha hb
    subst ha; subst hb
    exact absurd hab (lt_irrefl _)
  | x :: y :: t, h, a, b, ha, hb, hab, hnb => by
    have hzip : (x :: y :: t).zip (x :: y :: t).tail =
        (x, y) :: ((y :: t).zip ((y :: t).tail)) := rfl
    rw [hzip]
    have hx := List.pairwise_cons.mp h
    rcases List.mem_cons.mp ha with rfl | ha2
    · have hby : b = y := by
        rcases List.mem_cons.mp hb with rfl | hb2
        · exact absurd hab (lt_irrefl _)
        · rcases List.mem_cons.mp hb2 with rfl | hb3
          · rfl
          · have hay : a < y := hx.1 y (by simp)
            have hyb : y < b := (List.pairwise_cons.mp hx.2).1 b hb3
            exact absurd ⟨hay, hyb⟩ (hnb y (by simp))
      subst hby
      exact List.mem_cons_self _ _
    · have hb2 : b ∈ y :: t := by
        rcases List.mem_cons.mp hb with rfl | hb2
        · have : b < a := hx.1 a ha2
          exact absurd hab (by omega)
        · exact hb2
      have ih := zip_tail_intro (y :: t) hx.2 a b ha2 hb2 hab
        (fun c hc hcc => hnb c (List.mem_cons_of_mem x hc) hcc)
      exact List.mem_cons_of_mem _ ih

theorem zip_tail_sep : ∀ (J : List Nat), List.Pairwise (· < ·) J →
    List.Pairwise (fun p q => p.2 ≤ q.1) (J.zip J.tail)
  | [], _ => List.Pairwise.nil
  | [_], _ => List.Pairwise.nil
  | x :: y :: t, h => by
    have hzip : (x :: y :: t).zip (x :: y :: t).tail =
        (x, y) :: ((y :: t).zip ((y :: t).tail)) := rfl
    rw [hzip]
    have hx := List.pairwise_cons.mp h
    refine List.pairwise_cons.mpr ⟨?_, zip_tail_sep (y :: t) hx.2⟩
    intro q hq
    have hs := zip_tail_spec (y :: t) hx.2 q hq
    rcases List.mem_cons.mp hs.1 with h1 | h1
    · omega
    · exact le_of_lt ((List.pairwise_cons.mp hx.2).1 q.1 h1)

/-! The span index lists are strictly sorted and stay in bounds. -/

theorem jumps_mem_bounds (l : List Bool) : ∀ a ∈ jumps l, 1 ≤ a ∧ a < l.length := by
  intro a ha
  have := (mem_jumps l a).mp ha
  exact ⟨this.1, this.2.1⟩

theorem spanIndices_sorted (l : List Bool) (outer : Bool) (h : 0 < l.length) :
    List.Pairwise (· < ·) (spanIndices l outer) := by
  unfold spanIndices
  cases outer with
  | false => simpa using jumps_sorted l
  | true =>
    simp only [if_true]
    refine List.pairwise_cons.mpr ⟨?_, ?_⟩
    · intro b hb
      rcases List.mem_append.mp hb with hb1 | hb1
      · have := (jumps_mem_bounds l b hb1).1
        omega
      · simp only [List.mem_singleton] at hb1
        omega
    · refine List.pairwise_append.mpr ⟨jumps_sorted l, by simp, ?_⟩
      intro a ha b hb
      simp only [List.mem_singleton] at hb
      subst hb
      exact (jumps_mem_bounds l a ha).2

theorem get_lengths_pos (l : List Bool) (outer : Bool) (h : 0 < l.length) :
    ∀ x ∈ get_lengths_of_True_spans l outer, 0 < x := by
  intro x hx
  simp only [get_lengths_of_True_spans] at hx
  by_cases hg : 0 < (spanIndices l outer).length
  · rw [if_pos hg] at hx
    have hx2 : x ∈ zipDiff (spanIndices l outer) :=
      List.mem_of_mem_drop (everyOther_mem _ x hx)
    exact zipDiff_pos _ (spanIndices_sorted l outer h) x hx2
  · rw [if_neg hg] at hx
    simp at hx

/-! Pointwise characterisation of the gap-filling fold. -/

theorem fill_foldl_char (l : List Bool) : ∀ (ps : List (Nat × Nat)) (arr : List Bool),
    arr.length = l.length →
    (∀ p ∈ ps, arr.getD p.1 false = l.getD p.1 false) →
    (∀ p ∈ ps, p.1 < p.2 ∧ p.2 ≤ l.length) →
    List.Pairwise (fun p q => p.2 ≤ q.1) ps →
    (ps.foldl (fun a p => if a.getD p.1 false = false then setRangeTrue a p.1 p.2 else a)
        arr).length = l.length ∧
    ∀ j, ((ps.foldl (fun a p => if a.getD p.1 false = false then setRangeTrue a p.1 p.2 else a)
        arr).getD j false = true ↔
      (arr.getD j false = true ∨ ∃ p ∈ ps, l.getD p.1 false = false ∧ p.1 ≤ j ∧ j < p.2))
  | [], arr, hlen, _, _, _ => by simp [hlen]
  | p :: ps, arr, hlen, hst, hbd, hsep => by
    rw [List.foldl_cons]
    have hsep2 := List.pairwise_cons.mp hsep
    have hppbd := hbd p (by simp)
    by_cases hc : l.getD p.1 false = false
    · have harr : arr.getD p.1 false = false := by rw [hst p (by simp), hc]
      rw [if_pos harr]
      have hlen2 : (setRangeTrue arr p.1 p.2).length = l.length := by
        rw [setRangeTrue_length, hlen]
      have hst2 : ∀ q ∈ ps, (setRangeTrue arr p.1 p.2).getD q.1 false = l.getD q.1 false := by
        intro q hq
        rw [setRangeTrue_getD]
        have : p.2 ≤ q.1 := hsep2.1 q hq
        rw [if_neg (by omega)]
        exact hst q (by simp [hq])
      have ih := fill_foldl_char l ps (setRangeTrue arr p.1 p.2) hlen2 hst2
        (fun q hq => hbd q (by simp [hq])) hsep2.2
      refine ⟨ih.1, fun j => ?_⟩
      rw [ih.2 j, setRangeTrue_getD]
      constructor
      · rintro (hj | ⟨q, hq, hq2⟩)
        · by_cases hin : p.1 ≤ j ∧ j < p.2 ∧ j < arr.length
          · exact Or.inr ⟨p, by simp, hc, hin.1, hin.2.1⟩
          · rw [if_neg hin] at hj
            exact Or.inl hj
        · exact Or.inr ⟨q, by simp [hq], hq2⟩
      · rintro (hj | ⟨q, hq, hql, hq1, hq2⟩)
        · left
          split
          · rfl
          · exact hj
        · rcases List.mem_cons.mp hq with rfl | hq3
          · left
            rw [if_pos ⟨hq1, hq2, by omega⟩]
          · exact Or.inr ⟨q, hq3, hql, hq1, hq2⟩
    · have harr : ¬(arr.getD p.1 false = false) := by
        rw [hst p (by simp)]
        exact hc
      rw [if_neg harr]
      have ih := fill_foldl_char l ps arr hlen (fun q hq => hst q (by simp [hq]))
        (fun q hq => hbd q (by simp [hq])) hsep2.2
      refine ⟨ih.1, fun j => ?_⟩
      rw [ih.2 j]
      constructor
      · rintro (hj | ⟨q, hq, hq2⟩)
        · exact Or.inl hj
        · exact Or.inr ⟨q, by simp [hq], hq2⟩
      · rintro (hj | ⟨q, hq, hq2⟩)
        · exact Or.inl hj
        · rcases List.mem_cons.mp hq with rfl | hq3
          · exact absurd hq2.1 hc
          · exact Or.inr ⟨q, hq3, hq2⟩

theorem smallPairs_sub (l : List Bool) (m : Int) :
    ∀ p ∈ smallPairs l m,
      p ∈ (jumps l).zip (jumps l).tail ∧ ((p.2 : Int) - (p.1 : Int)) ≤ m := by
  intro p hp
  unfold smallPairs at hp
  have := List.mem_filter.mp hp
  exact ⟨this.1, by simpa using this.2⟩

theorem remove_small_char (l : List Bool) (m : Int) :
    (remove_small_False_spans l m).length = l.length ∧
    ∀ j, ((remove_small_False_spans l m).getD j false = true ↔
      (l.getD j false = true ∨
        ∃ p ∈ smallPairs l m, l.getD p.1 false = false ∧ p.1 ≤ j ∧ j < p.2)) := by
  unfold remove_small_False_spans
  have hbd : ∀ p ∈ smallPairs l m, p.1 < p.2 ∧ p.2 ≤ l.length := by
    intro p hp
    have hz := (smallPairs_sub l m p hp).1
    have hs := zip_tail_spec (jumps l) (jumps_sorted l) p hz
    exact ⟨hs.2.2.1, le_of_lt (jumps_mem_bounds l p.2 hs.2.1).2⟩
  have hsep : List.Pairwise (fun p q => p.2 ≤ q.1) (smallPairs l m) := by
    unfold smallPairs
    exact (zip_tail_sep (jumps l) (jumps_sorted l)).filter _
  exact fill_foldl_char l (smallPairs l m) l rfl (fun _ _ => rfl) hbd hsep

/-! Correspondence between selected jump pairs and interior small False runs. -/

theorem pair_run_iff (l : List Bool) (m : Int) (s e : Nat) :
    ((s, e) ∈ smallPairs l m ∧ l.getD s false = false) ↔ IsInteriorSmallFalseRun l m s e := by
  constructor
  · rintro ⟨hp, hfs⟩
    obtain ⟨hz, hm⟩ := smallPairs_sub l m (s, e) hp
    obtain ⟨hsJ, heJ, hlt, hnb⟩ := zip_tail_spec (jumps l) (jumps_sorted l) (s, e) hz
    obtain ⟨hs1, hs2, hsne⟩ := (mem_jumps l s).mp hsJ
    obtain ⟨he1, he2, hene⟩ := (mem_jumps l e).mp heJ
    have hconst : ∀ i < e, s ≤ i → l.getD i false = false := by
      intro i hie his
      have hh : l.getD i false = l.getD s false := by
        apply const_run l s i his (by omega)
        intro c hc1 hc2 hcm
        exact hnb c hcm ⟨hc1, by omega⟩
      rw [hh, hfs]
    refine ⟨by omega, hlt, he2, hm, hconst, ?_, ?_⟩
    · cases hb : l.getD (s - 1) false
      · rw [hb, hfs] at hsne
        exact absurd rfl hsne
      · rfl
    · have he3 : l.getD (e - 1) false = false := hconst (e - 1) (by omega) (by omega)
      cases hb : l.getD e false
      · rw [hb, he3] at hene
        exact absurd rfl hene
      · rfl
  · rintro ⟨h0, hse, helen, hm, hconst, hsb, heb⟩
    have hfs : l.getD s false = false := hconst s hse (le_refl s)
    have hsJ : s ∈ jumps l := by
      rw [mem_jumps]
      refine ⟨by omega, by omega, ?_⟩
      rw [hfs, hsb]
      simp
    have heJ : e ∈ jumps l := by
      rw [mem_jumps]
      have he3 : l.getD (e - 1) false = false := hconst (e - 1) (by omega) (by omega)
      refine ⟨by omega, helen, ?_⟩
      rw [heb, he3]
      simp
    have hnb : ∀ c ∈ jumps l, ¬(s < c ∧ c < e) := by
      rintro c hc ⟨hc1, hc2⟩
      obtain ⟨hc3, hc4, hcne⟩ := (mem_jumps l c).mp hc
      have h5 : l.getD c false = false := hconst c hc2 (by omega)
      have h6 : l.getD (c - 1) false = false := hconst (c - 1) (by omega) (by omega)
      rw [h5, h6] at hcne
      exact hcne rfl
    have hz := zip_tail_intro (jumps l) (jumps_sorted l) s e hsJ heJ hse hnb
    refine ⟨?_, hfs⟩
    unfold smallPairs
    rw [List.mem_filter]
    exact ⟨hz, by simpa using hm⟩

theorem remove_small_run_char (l : List Bool) (m : Int) : ∀ j,
    ((remove_small_False_spans l m).getD j false = true ↔
      (l.getD j false = true ∨ ∃ s e, IsInteriorSmallFalseRun l m s e ∧ s ≤ j ∧ j < e)) := by
  intro j
  rw [(remove_small_char l m).2 j]
  constructor
  · rintro (hj | ⟨p, hp, hpf, hp1, hp2⟩)
    · exact Or.inl hj
    · exact Or.inr ⟨p.1, p.2, (pair_run_iff l m p.1 p.2).mp ⟨hp, hpf⟩, hp1, hp2⟩
  · rintro (hj | ⟨s, e, hrun, h1, h2⟩)
    · exact Or.inl hj
    · have hh := (pair_run_iff l m s e).mpr hrun
      exact Or.inr ⟨(s, e), hh.1, hh.2, h1, h2⟩

theorem smallPairs_nil_of_nonpos (l : List Bool) (m : Int) (hm : m ≤ 0) :
    smallPairs l m = [] := by
  unfold smallPairs
  rw [List.filter_eq_nil_iff]
  intro p hp
  have hlt : p.1 < p.2 := (zip_tail_spec (jumps l) (jumps_sorted l) p hp).2.2.1
  simp only [decide_eq_true_eq]
  omega

theorem no_small_run_after (l : List Bool) (m : Int) :
    ∀ s e, ¬ IsInteriorSmallFalseRun (remove_small_False_spans l m) m s e := by
  intro s e hR
  obtain ⟨h0, hse, helen, hm, hconst, hsb, heb⟩ := hR
  have hlen : (remove_small_False_spans l m).length = l.length := (remove_small_char l m).1
  have hchar := remove_small_run_char l m
  have h1 : ∀ i, s ≤ i → i < e → (¬ l.getD i false = true ∧
      ¬ ∃ s2 e2, IsInteriorSmallFalseRun l m s2 e2 ∧ s2 ≤ i ∧ i < e2) := by
    intro i his hie
    have hri : ¬ ((remove_small_False_spans l m).getD i false = true) := by
      rw [hconst i hie his]
      simp
    rw [hchar i, not_or] at hri
    exact hri
  have hlf : ∀ i, s ≤ i → i < e → l.getD i false = false := by
    intro i his hie
    cases hb : l.getD i false
    · rfl
    · exact absurd hb (h1 i his hie).1
  have hsl : l.getD (s - 1) false = true := by
    rcases (hchar (s - 1)).mp hsb with h | ⟨s2, e2, hrun2, hc1, hc2⟩
    · exact h
    · exfalso
      by_cases hcase : s < e2
      · exact (h1 s (le_refl s) hse).2 ⟨s2, e2, hrun2, by omega, hcase⟩
      · have he2s : e2 = s := by omega
        obtain ⟨_, _, _, _, _, _, hz7⟩ := hrun2
        rw [he2s] at hz7
        have hz8 := hlf s (le_refl s) hse
        simp_all
  have hel : l.getD e false = true := by
    rcases (hchar e).mp heb with h | ⟨s2, e2, hrun2, hc1, hc2⟩
    · exact h
    · exfalso
      obtain ⟨hz1, hz2, hz3, hz4, hz5, hz6, hz7⟩ := hrun2
      by_cases hcase : s < s2
      · have hb2 : l.getD (s2 - 1) false = false := hlf (s2 - 1) (by omega) (by omega)
        simp_all
      · exact (h1 s (le_refl s) hse).2
          ⟨s2, e2, ⟨hz1, hz2, hz3, hz4, hz5, hz6, hz7⟩, by omega, by omega⟩
  have hrunl : IsInteriorSmallFalseRun l m s e :=
    ⟨h0, hse, by omega, hm, fun i hie his => hlf i his hie, hsl, hel⟩
  have hrs : (remove_small_False_spans l m).getD s false = true :=
    (hchar s).mpr (Or.inr ⟨s, e, hrunl, le_refl s, hse⟩)
  have hrs2 := hconst s hse (le_refl s)
  simp_all

/-! Characterisation of the delay policy. -/

theorem foldl_zip_fst {α β γ : Type} (g : γ → α → γ) :
    ∀ (xs : List α) (ys : List β) (init : γ), xs.length ≤ ys.length →
      (xs.zip ys).foldl (fun c p => g c p.1) init = xs.foldl g init
  | [], _, _, _ => rfl
  | _ :: _, [], _, h => by simp at h
  | x :: xs, y :: ys, init, h => by
    simp only [List.zip_cons_cons, List.foldl_cons]
    exact foldl_zip_fst g xs ys (g init x) (by simpa using h)

theorem delay_true_spans_eq_foldl (l : List Bool) (d : Nat) :
    delay_true_spans l d = (jumps l).foldl
      (fun arr a => if arr.getD a false = false then
        setRangeTrue arr a (min (a + d) l.length) else arr) l := by
  simp only [delay_true_spans]
  rw [List.dropLast_concat]
  exact foldl_zip_fst (fun arr a => if arr.getD a false = false then
    setRangeTrue arr a (min (a + d) l.length) else arr) (jumps l)
    ((jumps l ++ [l.length]).tail) l (by simp)

theorem delay_go (l : List Bool) (d : Nat) : ∀ (js : List Nat) (arr : List Bool) (acc : List Nat),
    arr.length = l.length →
    (∀ a ∈ js, a < l.length) →
    (∀ j, arr.getD j false = true ↔
      (l.getD j false = true ∨ ∃ b ∈ acc, b ≤ j ∧ j < b + d ∧ j < l.length)) →
    ((js.foldl (fun arr2 a => if arr2.getD a false = false then
        setRangeTrue arr2 a (min (a + d) l.length) else arr2) arr).length = l.length ∧
     ∀ j, ((js.foldl (fun arr2 a => if arr2.getD a false = false then
        setRangeTrue arr2 a (min (a + d) l.length) else arr2) arr).getD j false = true ↔
      (l.getD j false = true ∨ ∃ b ∈ (js.foldl (fun acc2 a =>
        if l.getD a false = false ∧ ∀ b ∈ acc2, ¬(b ≤ a ∧ a < b + d) then acc2 ++ [a]
        else acc2) acc), b ≤ j ∧ j < b + d ∧ j < l.length)))
  | [], _, _, hlen, _, hinv => ⟨hlen, by simpa using hinv⟩
  | a :: js, arr, acc, hlen, hmem, hinv => by
    rw [List.foldl_cons, List.foldl_cons]
    have halen : a < l.length := hmem a (by simp)
    by_cases hcond : l.getD a false = false ∧ ∀ b ∈ acc, ¬(b ≤ a ∧ a < b + d)
    · have harr : arr.getD a false = false := by
        cases hb : arr.getD a false
        · rfl
        · exfalso
          rcases (hinv a).mp hb with h | ⟨b, hbm, hb1, hb2, _⟩
          · rw [h] at hcond
            exact absurd hcond.1 (by simp)
          · exact hcond.2 b hbm ⟨hb1, hb2⟩
      rw [if_pos harr, if_pos hcond]
      apply delay_go l d js (setRangeTrue arr a (min (a + d) l.length)) (acc ++ [a])
      · rw [setRangeTrue_length, hlen]
      · exact fun b hb => hmem b (by simp [hb])
      · intro j
        rw [setRangeTrue_getD]
        constructor
        · intro hj
          by_cases hin : a ≤ j ∧ j < min (a + d) l.length ∧ j < arr.length
          · exact Or.inr ⟨a, by simp, hin.1, by omega, by omega⟩
          · rw [if_neg hin] at hj
            rcases (hinv j).mp hj with h | ⟨b, hbm, hb2⟩
            · exact Or.inl h
            · exact Or.inr ⟨b, by simp [hbm], hb2⟩
        · rintro (hj | ⟨b, hbm, hb1, hb2, hb3⟩)
          · rw [(hinv j).mpr (Or.inl hj)]
            split <;> rfl
          · rcases List.mem_append.mp hbm with hbm2 | hbm2
            · rw [(hinv j).mpr (Or.inr ⟨b, hbm2, hb1, hb2, hb3⟩)]
              split <;> rfl
            · simp only [List.mem_singleton] at hbm2
              subst hbm2
              rw [if_pos ⟨hb1, by omega, by omega⟩]
    · have harr : ¬(arr.getD a false = false) := by
        intro hb
        apply hcond
        have hnot : ¬(arr.getD a false = true) := by rw [hb]; simp
        rw [hinv a, not_or] at hnot
        constructor
        · cases hla : l.getD a false
          · rfl
          · exact absurd hla hnot.1
        · intro b hbm hb2
          exact hnot.2 ⟨b, hbm, hb2.1, hb2.2, halen⟩
      rw [if_neg harr, if_neg hcond]
      exact delay_go l d js arr acc hlen (fun b hb => hmem b (by simp [hb])) hinv

theorem delay_char (l : List Bool) (d : Nat) :
    (delay_true_spans l d).length = l.length ∧
    ∀ j, ((delay_true_spans l d).getD j false = true ↔
      (l.getD j false = true ∨ ∃ b ∈ filledStarts l d, b ≤ j ∧ j < b + d ∧ j < l.length)) := by
  rw [delay_true_spans_eq_foldl]
  unfold filledStarts
  exact delay_go l d (jumps l) l []
    rfl (fun a ha => (jumps_mem_bounds l a ha).2) (fun j => by simp)

theorem filled_go (l : List Bool) (d : Nat) : ∀ (js : List Nat) (acc : List Nat),
    (∀ a ∈ js, a ∈ jumps l) →
    List.Pairwise (· < ·) js →
    (∀ b ∈ acc, ∀ a ∈ js, b < a) →
    (∀ a ∈ acc, a ∈ jumps l ∧ l.getD a false = false ∧
      ∀ b ∈ acc, b < a → b + d ≤ a) →
    ∀ a2 ∈ (js.foldl (fun acc2 a =>
        if l.getD a false = false ∧ ∀ b ∈ acc2, ¬(b ≤ a ∧ a < b + d) then acc2 ++ [a]
        else acc2) acc),
      a2 ∈ jumps l ∧ l.getD a2 false = false ∧
        ∀ b2 ∈ (js.foldl (fun acc2 a =>
          if l.getD a false = false ∧ ∀ b ∈ acc2, ¬(b ≤ a ∧ a < b + d) then acc2 ++ [a]
          else acc2) acc), b2 < a2 → b2 + d ≤ a2
  | [], acc, _, _, _, hQ => by simpa using hQ
  | a :: js, acc, hjm, hsort, hlt, hQ => by
    rw [List.foldl_cons]
    have hsort2 := List.pairwise_cons.mp hsort
    by_cases hc : l.getD a false = false ∧ ∀ b ∈ acc, ¬(b ≤ a ∧ a < b + d)
    · rw [if_pos hc]
      apply filled_go l d js (acc ++ [a])
      · exact fun b hb => hjm b (by simp [hb])
      · exact hsort2.2
      · intro b hb a2 ha2
        rcases List.mem_append.mp hb with hb2 | hb2
        · exact lt_trans (hlt b hb2 a (by simp)) (hsort2.1 a2 ha2)
        · simp only [List.mem_singleton] at hb2
          rw [hb2]
          exact hsort2.1 a2 ha2
      · intro x hx
        rcases List.mem_append.mp hx with hx2 | hx2
        · have hq := hQ x hx2
          refine ⟨hq.1, hq.2.1, ?_⟩
          intro b hb hblt
          rcases List.mem_append.mp hb with hb2 | hb2
          · exact hq.2.2 b hb2 hblt
          · simp only [List.mem_singleton] at hb2
            have h9 := hlt x hx2 a (by simp)
            omega
        · simp only [List.mem_singleton] at hx2
          refine ⟨by rw [hx2]; exact hjm a (by simp), by rw [hx2]; exact hc.1, ?_⟩
          intro b hb hblt
          rcases List.mem_append.mp hb with hb2 | hb2
          · have h8 := hc.2 b hb2
            omega
          · simp only [List.mem_singleton] at hb2
            omega
    · rw [if_neg hc]
      exact filled_go l d js acc (fun b hb => hjm b (by simp [hb])) hsort2.2
        (fun b hb a2 ha2 => hlt b hb a2 (by simp [ha2])) hQ

theorem filledStarts_spec (l : List Bool) (d : Nat) :
    ∀ a ∈ filledStarts l d, a ∈ jumps l ∧ l.getD a false = false ∧
      ∀ b ∈ filledStarts l d, b < a → b + d ≤ a := by
  unfold filledStarts
  exact filled_go l d (jumps l) [] (fun _ ha => ha) (jumps_sorted l) (by simp) (by simp)

theorem delay_zero (l : List Bool) : delay_true_spans l 0 = l := by
  apply list_eq_of_getD false _ _ (delay_char l 0).1
  intro j
  have h2 : (delay_true_spans l 0).getD j false = true ↔ l.getD j false = true := by
    rw [(delay_char l 0).2 j]
    constructor
    · rintro (hj | ⟨b, _, hb1, hb2, _⟩)
      · exact hj
      · omega
    · exact Or.inl
  cases h1 : (delay_true_spans l 0).getD j false <;> cases hl2 : l.getD j false <;> simp_all

/-! The ACF accumulator. -/

theorem add_acf_length (t acf : List Int) (spans : List Nat) :
    (add_acf_from_span_lengths t acf spans).length = acf.length := by
  unfold add_acf_from_span_lengths
  exact foldl_length_preserved _ (fun arr _ => mapIdxFrom_length _ 0 arr) spans acf

theorem add_acf_char : ∀ (spans : List Nat) (t acf : List Int) (i : Nat), i < acf.length →
    (add_acf_from_span_lengths t acf spans).getD i 0 =
      acf.getD i 0 + (spans.map (fun L => if i < L then (L : Int) - t.getD i 0 else 0)).sum
  | [], t, acf, i, h => by simp [add_acf_from_span_lengths]
  | L :: spans, t, acf, i, h => by
    have hstep : add_acf_from_span_lengths t acf (L :: spans) =
        add_acf_from_span_lengths t
          (mapIdxFrom (fun k x => if k < L then x + ((L : Int) - t.getD k 0) else x) 0 acf)
          spans := rfl
    have hlen : (mapIdxFrom (fun k x => if k < L then x + ((L : Int) - t.getD k 0) else x)
        0 acf).length = acf.length := mapIdxFrom_length _ 0 acf
    rw [hstep, add_acf_char spans t _ i (by omega), mapIdxFrom_getD, if_pos h]
    simp only [Nat.zero_add, List.map_cons, List.sum_cons]
    by_cases hiL : i < L
    · rw [if_pos hiL, if_pos hiL]
      ring
    · rw [if_neg hiL, if_neg hiL]
      ring

/-! Length preservation of the gap policies and the block computation. -/

theorem remove_small_length (l : List Bool) (m : Int) :
    (remove_small_False_spans l m).length = l.length := (remove_small_char l m).1

theorem delay_length (l : List Bool) (d : Nat) :
    (delay_true_spans l d).length = l.length := (delay_char l d).1

theorem gapPolicy_length (m : Int) (delay : Bool) (sel : List Bool) :
    (gapPolicy m delay sel).length = sel.length := by
  unfold gapPolicy
  split
  · split
    · exact delay_length sel m.toNat
    · exact remove_small_length sel m
  · rfl

theorem blockStep_ok (t : List Int) (m : Int) (outer delay : Bool) (acc : List Int × Nat)
    (sel : List Bool) (hsel : sel.length = t.length) (ht : 0 < t.length) :
    blockStep t m outer delay acc sel = Except.ok
      (add_acf_from_span_lengths t acc.1
        (get_lengths_of_True_spans (gapPolicy m delay sel) outer),
       acc.2 + (get_lengths_of_True_spans (gapPolicy m delay sel) outer).sum) := by
  unfold blockStep get_lengths_of_True_spans_run
  rw [if_pos]
  · rfl
  · rw [gapPolicy_length, hsel]
    exact ht

theorem calc_block_go (t : List Int) (m : Int) (outer delay : Bool) (ht : 0 < t.length) :
    ∀ (sels : List (List Bool)) (acc : List Int × Nat),
      (∀ s ∈ sels, s.length = t.length) → acc.1.length = t.length →
      ∃ r, sels.foldlM (blockStep t m outer delay) acc = Except.ok r ∧
        r.1.length = t.length ∧ (r.2 = 0 → r.1 = acc.1 ∧ acc.2 = 0)
  | [], acc, _, hacc => ⟨acc, rfl, hacc, fun hz => ⟨rfl, hz⟩⟩
  | sel :: sels, acc, hsels, hacc => by
    rw [List.foldlM_cons, blockStep_ok t m outer delay acc sel (hsels sel (by simp)) ht]
    have hacc2len : (add_acf_from_span_lengths t acc.1
        (get_lengths_of_True_spans (gapPolicy m delay sel) outer)).length = t.length := by
      rw [add_acf_length]
      exact hacc
    obtain ⟨r, hr, hrlen, hrz⟩ := calc_block_go t m outer delay ht sels
      (add_acf_from_span_lengths t acc.1
        (get_lengths_of_True_spans (gapPolicy m delay sel) outer),
       acc.2 + (get_lengths_of_True_spans (gapPolicy m delay sel) outer).sum)
      (fun s hs => hsels s (by simp [hs])) hacc2len
    refine ⟨r, hr, hrlen, ?_⟩
    intro hz
    obtain ⟨h1, h2⟩ := hrz hz
    have hsum0 : (get_lengths_of_True_spans (gapPolicy m delay sel) outer).sum = 0 := by
      omega
    have hspans : get_lengths_of_True_spans (gapPolicy m delay sel) outer = [] := by
      cases hsp : get_lengths_of_True_spans (gapPolicy m delay sel) outer with
      | nil => rfl
      | cons x xs =>
        have hlp : 0 < (gapPolicy m delay sel).length := by
          rw [gapPolicy_length, hsels sel (by simp)]
          exact ht
        have hx : 0 < x := get_lengths_pos _ outer hlp x (by rw [hsp]; simp)
        rw [hsp] at hsum0
        simp only [List.sum_cons] at hsum0
        omega
    constructor
    · rw [h1, hspans]
      rfl
    · omega

theorem normalize_zero_norm (acf : List Int) :
    normalize_block acf 0 = acf.map (fun x =>
      if x = 0 then NFloat.nan else if 0 < x then NFloat.inf else NFloat.negInf) := by
  unfold normalize_block
  rw [if_pos rfl]

theorem calc_block_run_of_block (t : List Int) (sels : List (List Bool)) (m : Int)
    (outer delay : Bool) (acf : List Int) (norm : Nat)
    (h : calc_block t sels m outer delay = Except.ok (acf, norm)) :
    calc_block_run t sels m outer delay = Except.ok (normalize_block acf norm) := by
  unfold calc_block_run
  rw [h]
  rfl

theorem map_replicate_nan (n : Nat) :
    (List.replicate n (0 : Int)).map (fun x =>
      if x = 0 then NFloat.nan else if 0 < x then NFloat.inf else NFloat.negInf) =
      List.replicate n NFloat.nan := by
  rw [List.map_replicate]
  rfl

/-! Block list plumbing and statistics algebra. -/

theorem calc_acf_blocks_length (t : List Int) (m : Int) (outer delay : Bool) :
    ∀ (blocks : List (List (List Bool))) (rows : List (List NFloat)),
      calc_acf_blocks t blocks m outer delay = Except.ok rows → rows.length = blocks.length
  | [], rows, h => by
    have h2 : (Except.ok [] : Except String (List (List NFloat))) = Except.ok rows := h
    injection h2 with h3
    rw [← h3]
    rfl
  | sels :: rest, rows, h => by
    cases hrow : calc_block_run t sels m outer delay with
    | error e =>
      have h2 : calc_acf_blocks t (sels :: rest) m outer delay = Except.error e := by
        unfold calc_acf_blocks
        rw [hrow]
        rfl
      rw [h2] at h
      exact Except.noConfusion h
    | ok row =>
      cases hrest : calc_acf_blocks t rest m outer delay with
      | error e =>
        have h2 : calc_acf_blocks t (sels :: rest) m outer delay = Except.error e := by
          unfold calc_acf_blocks
          rw [hrow, hrest]
          rfl
        rw [h2] at h
        exact Except.noConfusion h
      | ok rows2 =>
        have h2 : calc_acf_blocks t (sels :: rest) m outer delay =
            Except.ok (row :: rows2) := by
          unfold calc_acf_blocks
          rw [hrow, hrest]
          rfl
        rw [h2] at h
        injection h with h3
        rw [← h3]
        simp [calc_acf_blocks_length t m outer delay rest rows2 hrest]

theorem np_mean_mul (xs : List ℝ) (h : xs ≠ []) :
    np_mean xs * (xs.length : ℝ) = xs.sum := by
  have hl : 0 < xs.length := List.length_pos.mpr h
  have hn : (xs.length : ℝ) ≠ 0 := Nat.cast_ne_zero.mpr (by omega)
  unfold np_mean
  exact div_mul_cancel₀ _ hn

theorem np_std_sq (xs : List ℝ) (h : xs ≠ []) :
    np_std xs ^ 2 * (xs.length : ℝ) = (xs.map (fun x => (x - np_mean xs) ^ 2)).sum := by
  have hl : 0 < xs.length := List.length_pos.mpr h
  have hn : (xs.length : ℝ) ≠ 0 := Nat.cast_ne_zero.mpr (by omega)
  have hs : 0 ≤ (xs.map (fun x => (x - np_mean xs) ^ 2)).sum := by
    apply List.sum_nonneg
    intro x hx
    obtain ⟨y, _, rfl⟩ := List.mem_map.mp hx
    exact sq_nonneg _
  unfold np_std
  rw [Real.sq_sqrt (div_nonneg hs (Nat.cast_nonneg _)), div_mul_cancel₀ _ hn]

/-! Sum comparison between the two outer_spans modes. -/

theorem key_drop_lemma (D : List Nat) (a z : Nat) (b : Bool) :
    (everyOther (D.drop (if (!b) = true then 0 else 1))).sum ≤
      (everyOther ((a :: (D ++ [z])).drop (if b = true then 0 else 1))).sum := by
  cases b with
  | true =>
    show (everyOther (D.drop 1)).sum ≤ (everyOther (a :: (D ++ [z]))).sum
    cases D with
    | nil => simp [everyOther]
    | cons dd D2 =>
      show (everyOther D2).sum ≤ (everyOther (a :: dd :: (D2 ++ [z]))).sum
      have h1 : everyOther (a :: dd :: (D2 ++ [z])) = a :: everyOther (D2 ++ [z]) := rfl
      rw [h1, List.sum_cons]
      have := everyOther_concat_sum_le D2 z
      omega
  | false =>
    show (everyOther D).sum ≤ (everyOther ((a :: (D ++ [z])).drop 1)).sum
    have h1 : (a :: (D ++ [z])).drop 1 = D ++ [z] := rfl
    rw [h1]
    exact everyOther_concat_sum_le D z

theorem get_lengths_outer_sum_le (l : List Bool) (h : l ≠ []) :
    (get_lengths_of_True_spans l true).sum ≤ l.length := by
  have hlen : 0 < l.length := List.length_pos.mpr h
  simp only [get_lengths_of_True_spans]
  split
  · have h1 := le_trans
      (everyOther_sum_le ((zipDiff (spanIndices l true)).drop
        (if l.getD ((spanIndices l true).getD 0 0) false then 0 else 1)))
      (drop_sum_le (zipDiff (spanIndices l true)) _)
    have hsi : spanIndices l true = 0 :: (jumps l ++ [l.length]) := by
      unfold spanIndices
      rfl
    have hpw : List.Pairwise (· ≤ ·) (0 :: (jumps l ++ [l.length])) := by
      have h3 := (spanIndices_sorted l true hlen).imp
        (le_of_lt : ∀ {x y : Nat}, x < y → x ≤ y)
      rw [hsi] at h3
      exact h3
    have h2 := zipDiff_sum (jumps l ++ [l.length]) 0 hpw
    rw [List.getLastD_concat] at h2
    rw [hsi] at h1 ⊢
    omega
  · simp

theorem get_lengths_mono (l : List Bool) (h : l ≠ []) :
    (get_lengths_of_True_spans l false).sum ≤ (get_lengths_of_True_spans l true).sum := by
  have hlen : 0 < l.length := List.length_pos.mpr h
  cases hJ : jumps l with
  | nil =>
    have hfalse : get_lengths_of_True_spans l false = [] := by
      simp [get_lengths_of_True_spans, spanIndices, hJ]
    rw [hfalse]
    exact Nat.zero_le _
  | cons a J2 =>
    have haJ : a ∈ jumps l := by rw [hJ]; exact List.mem_cons_self a J2
    obtain ⟨ha1, ha2⟩ := jumps_mem_bounds l a haJ
    have hflip : l.getD a false = !(l.getD 0 false) := head_jump_flip l a J2 hJ
    have hsiF : spanIndices l false = a :: J2 := by
      unfold spanIndices
      rw [hJ]
      rfl
    have hsiT : spanIndices l true = 0 :: a :: (J2 ++ [l.length]) := by
      unfold spanIndices
      rw [hJ]
      rfl
    have hTlist : zipDiff (spanIndices l true) =
        a :: (zipDiff (a :: J2) ++ [l.length - J2.getLastD a]) := by
      rw [hsiT, zipDiff_cons2, zipDiff_concat J2 a l.length]
      simp
    have hgF : (spanIndices l false).getD 0 0 = a := by rw [hsiF]; rfl
    have hgT : (spanIndices l true).getD 0 0 = 0 := by rw [hsiT]; rfl
    have hglenF : 0 < (spanIndices l false).length := by rw [hsiF]; simp
    have hglenT : 0 < (spanIndices l true).length := by rw [hsiT]; simp
    simp only [get_lengths_of_True_spans]
    rw [if_pos hglenF, if_pos hglenT, hgF, hgT, hTlist, hsiF, hflip]
    exact key_drop_lemma (zipDiff (a :: J2)) a (l.length - J2.getLastD a) (l.getD 0 false)

/-! Claim theorems. -/

/-- Claim C1, counterexample: a block whose only atom is never selected has
normalisation counter 0, and the computation does not fail: it returns the
block ACF with every entry NaN and proceeds.  This contradicts the claim
that a zero normalisation counter is surfaced as an error. -/
theorem claim_C1_counterexample :
    calc_block [0, 1, 2] [[false, false, false]] 0 false false = Except.ok ([0, 0, 0], 0) ∧
    calc_block_run [0, 1, 2] [[false, false, false]] 0 false false =
      Except.ok [NFloat.nan, NFloat.nan, NFloat.nan] := ⟨rfl, rfl⟩

/-- Claim C1 (amended): if a block has a zero normalisation counter, the
block computation does not fail; its unnormalised buffer is still all zero,
the numpy division 0/0 turns every entry into NaN (with a RuntimeWarning,
not an exception), and the computation proceeds with the NaN row. -/
theorem claim_C1_amended : ∀ (t : List Int) (sels : List (List Bool)) (m : Int)
    (outer delay : Bool) (acf : List Int),
    0 < t.length → (∀ s ∈ sels, s.length = t.length) →
    calc_block t sels m outer delay = Except.ok (acf, 0) →
    calc_block_run t sels m outer delay = Except.ok (List.replicate t.length NFloat.nan) := by
  intro t sels m outer delay acf ht hsels hcb
  obtain ⟨r, hr, hrlen, hrz⟩ := calc_block_go t m outer delay ht sels
    (List.replicate t.length 0, 0) hsels (by simp)
  have hr2 : calc_block t sels m outer delay = Except.ok r := hr
  rw [hcb] at hr2
  injection hr2 with hr3
  have hz : r.2 = 0 := by rw [← hr3]
  obtain ⟨h1, _⟩ := hrz hz
  have hacf : acf = List.replicate t.length 0 := by
    rw [← hr3] at h1
    exact h1
  rw [calc_block_run_of_block t sels m outer delay acf 0 hcb, hacf, normalize_zero_norm,
    map_replicate_nan]

/-- Witness for the amended claim C1 at a concrete zero-norm block. -/
theorem claim_C1_witness :
    calc_block_run [0] [[false]] 0 false false = Except.ok (List.replicate 1 NFloat.nan) :=
  claim_C1_amended [0] [[false]] 0 false false [0] (by decide) (by decide) (by rfl)

/-- Claim C2, counterexample: a False run that starts at index 0 is never
extended by delay_true_spans, because the iterated run boundaries start at
the first value change; the claim requires index 0 to become True here. -/
theorem claim_C2_counterexample :
    delay_true_spans [false, true] 1 = [false, true] := by decide

/-- Claim C2 (amended): delay_true_spans with delay 0 changes nothing; with
any delay, the result is True exactly at the frames that were already True
together with the frames of the windows of the filled start indices, where
a start index is filled when it is a value-change boundary (hence at index
1 or later, so a False run starting at index 0 is never extended), its
original value is False, and it is not inside the window of a previously
filled start (in which case its run is skipped entirely). -/
theorem claim_C2_amended : ∀ (l : List Bool) (d : Nat),
    delay_true_spans l 0 = l ∧
    (delay_true_spans l d).length = l.length ∧
    (∀ j, ((delay_true_spans l d).getD j false = true ↔
      (l.getD j false = true ∨ ∃ a ∈ filledStarts l d, a ≤ j ∧ j < a + d ∧ j < l.length))) ∧
    (∀ a ∈ filledStarts l d, 1 ≤ a ∧ l.getD a false = false ∧
      ∀ b ∈ filledStarts l d, b < a → b + d ≤ a) := by
  intro l d
  refine ⟨delay_zero l, (delay_char l d).1, (delay_char l d).2, ?_⟩
  intro a ha
  obtain ⟨hj, hf, hsep⟩ := filledStarts_spec l d a ha
  exact ⟨(jumps_mem_bounds l a hj).1, hf, hsep⟩

/-- Witness for the amended claim C2: the delay 0 clause at a concrete
sequence. -/
theorem claim_C2_witness : delay_true_spans [true, false] 0 = [true, false] :=
  (claim_C2_amended [true, false] 0).1

/-- Claim C3: remove_small_False_spans flips to True exactly the frames of
the False runs that lie strictly between two True runs and have length at
most max_gap (inclusive threshold), and changes no other frame; in
particular True frames and boundary False runs are untouched, and a
max_gap of 0 or less changes nothing. -/
theorem claim_C3 : ∀ (l : List Bool) (m : Int),
    (remove_small_False_spans l m).length = l.length ∧
    (∀ j, ((remove_small_False_spans l m).getD j false = true ↔
      (l.getD j false = true ∨ ∃ s e, IsInteriorSmallFalseRun l m s e ∧ s ≤ j ∧ j < e))) ∧
    (m ≤ 0 → remove_small_False_spans l m = l) := by
  intro l m
  refine ⟨(remove_small_char l m).1, remove_small_run_char l m, fun hm => ?_⟩
  unfold remove_small_False_spans
  rw [smallPairs_nil_of_nonpos l m hm]
  rfl

/-- Witness for claim C3: the single interior False frame of a concrete
sequence is flipped with max_gap 1. -/
theorem claim_C3_witness :
    (remove_small_False_spans [true, false, true] 1).getD 1 false = true :=
  ((claim_C3 [true, false, true] 1).2.1 1).mpr
    (Or.inr ⟨1, 2, by decide, by decide, by decide⟩)

/-- Claim C4: on the integer time grid 0..F-1, each span of length L at
most F adds exactly L - i to entry i for i < L and nothing to entries
i >= L; the result is the initial buffer plus the elementwise sum of the
per-span contributions and does not depend on the order of the spans. -/
theorem claim_C4 : ∀ (F : Nat) (acf : List Int) (spans : List Nat),
    0 < F → (∀ L ∈ spans, L ≤ F) →
    (add_acf_from_span_lengths ((List.range F).map Int.ofNat) acf spans).length = acf.length ∧
    (∀ i, i < acf.length →
      (add_acf_from_span_lengths ((List.range F).map Int.ofNat) acf spans).getD i 0 =
        acf.getD i 0 + (spans.map (fun L => if i < L then (L : Int) - (i : Int) else 0)).sum) ∧
    (∀ spans2, spans.Perm spans2 →
      add_acf_from_span_lengths ((List.range F).map Int.ofNat) acf spans2 =
        add_acf_from_span_lengths ((List.range F).map Int.ofNat) acf spans) := by
  intro F acf spans hF hLF
  have hkey : ∀ (sp : List Nat), (∀ L ∈ sp, L ≤ F) → ∀ i, i < acf.length →
      (add_acf_from_span_lengths ((List.range F).map Int.ofNat) acf sp).getD i 0 =
        acf.getD i 0 + (sp.map (fun L => if i < L then (L : Int) - (i : Int) else 0)).sum := by
    intro sp hsp i hi
    rw [add_acf_char sp _ acf i hi]
    congr 1
    congr 1
    apply List.map_congr_left
    intro L hL
    by_cases hiL : i < L
    · rw [if_pos hiL, if_pos hiL]
      congr 1
      have hiF : i < F := by
        have := hsp L hL
        omega
      rw [List.getD_eq_getElem?_getD, List.getElem?_map, List.getElem?_range hiF]
      rfl
    · rw [if_neg hiL, if_neg hiL]
  refine ⟨add_acf_length _ acf spans, hkey spans hLF, ?_⟩
  intro spans2 hperm
  apply list_eq_of_getD (0 : Int)
  · rw [add_acf_length, add_acf_length]
  · intro j
    by_cases hj : j < acf.length
    · rw [hkey spans2 (fun L hL => hLF L (hperm.mem_iff.mpr hL)) j hj, hkey spans hLF j hj]
      congr 1
      exact ((hperm.map _).sum_eq).symm
    · rw [List.getD_eq_default, List.getD_eq_default]
      · rw [add_acf_length]
        omega
      · rw [add_acf_length]
        omega

/-- Witness for claim C4 at a concrete grid and span list. -/
theorem claim_C4_witness :
    (add_acf_from_span_lengths ((List.range 2).map Int.ofNat) [0, 0] [1, 2]).length =
      ([0, 0] : List Int).length :=
  (claim_C4 2 [0, 0] [1, 2] (by decide) (by decide)).1

/-- Claim C5: for every non-empty boolean sequence, the summed span lengths
without outer spans are at most those with outer spans, which are at most
the sequence length. -/
theorem claim_C5 : ∀ l : List Bool, l ≠ [] →
    (get_lengths_of_True_spans l false).sum ≤ (get_lengths_of_True_spans l true).sum ∧
    (get_lengths_of_True_spans l true).sum ≤ l.length :=
  fun l h => ⟨get_lengths_mono l h, get_lengths_outer_sum_le l h⟩

/-- Witness for claim C5 at a concrete sequence. -/
theorem claim_C5_witness :
    (get_lengths_of_True_spans [false, true, false] false).sum ≤
      (get_lengths_of_True_spans [false, true, false] true).sum ∧
    (get_lengths_of_True_spans [false, true, false] true).sum ≤
      ([false, true, false] : List Bool).length :=
  claim_C5 [false, true, false] (by decide)

/-- Claim C6: remove_small_False_spans is idempotent: a second application
with the same threshold changes nothing, because every qualifying gap is
already True after the first pass. -/
theorem claim_C6 : ∀ (l : List Bool) (m : Int),
    remove_small_False_spans (remove_small_False_spans l m) m =
      remove_small_False_spans l m := by
  intro l m
  apply list_eq_of_getD false
  · exact (remove_small_char (remove_small_False_spans l m) m).1
  · intro j
    have hiff : (remove_small_False_spans (remove_small_False_spans l m) m).getD j false =
        true ↔ (remove_small_False_spans l m).getD j false = true := by
      rw [remove_small_run_char (remove_small_False_spans l m) m j]
      constructor
      · rintro (h | ⟨s, e, hrun, _, _⟩)
        · exact h
        · exact absurd hrun (no_small_run_after l m s e)
      · exact Or.inl
    cases h1 : (remove_small_False_spans (remove_small_False_spans l m) m).getD j false <;>
      cases h2 : (remove_small_False_spans l m).getD j false <;> simp_all

/-- Claim C7: span extraction on an empty sequence fails with the assert,
for either value of outer_spans; it does not return an empty list. -/
theorem claim_C7 : ∀ outer : Bool,
    get_lengths_of_True_spans_run [] outer = Except.error "AssertionError" :=
  fun _ => rfl

/-- Claim C8: the cross-block mean is the elementwise mean of the per-block
ACFs and the cross-block standard deviation is computed with divisor
n_blocks (numpy default ddof 0), not n_blocks - 1: the squared deviation
sums are divided by the number of blocks. -/
theorem claim_C8 : ∀ (t : List Int) (blocks : List (List (List Bool))) (m : Int)
    (outer delay : Bool) (rows : List (List NFloat)),
    calc_acf_blocks t blocks m outer delay = Except.ok rows → 0 < rows.length →
    rows.length = blocks.length ∧
    ∀ j, acf_blocks_mean rows j * (rows.length : ℝ) =
        (rows.map (fun r => (r.getD j NFloat.nan).toRealD)).sum ∧
      acf_blocks_std rows j ^ 2 * (rows.length : ℝ) =
        ((rows.map (fun r => (r.getD j NFloat.nan).toRealD)).map
          (fun x => (x - np_mean (rows.map (fun r => (r.getD j NFloat.nan).toRealD))) ^ 2)).sum := by
  intro t blocks m outer delay rows hok hpos
  refine ⟨calc_acf_blocks_length t m outer delay blocks rows hok, ?_⟩
  intro j
  have hlc : (rows.map (fun r => (r.getD j NFloat.nan).toRealD)).length = rows.length :=
    List.length_map _ _
  have hcolne : rows.map (fun r => (r.getD j NFloat.nan).toRealD) ≠ [] := by
    intro hnil
    rw [hnil] at hlc
    simp at hlc
    omega
  constructor
  · have h1 := np_mean_mul _ hcolne
    rw [hlc] at h1
    exact h1
  · have h2 := np_std_sq _ hcolne
    rw [hlc] at h2
    exact h2

/-- Witness for claim C8 at a concrete one-block input. -/
theorem claim_C8_witness :
    ([[NFloat.nan]] : List (List NFloat)).length =
      ([[[false]]] : List (List (List Bool))).length :=
  (claim_C8 [0] [[[false]]] 0 true false [[NFloat.nan]] (by rfl) (by decide)).1

/-- Claim C9: both gap policies only ever turn frames from False to True:
every frame that is True before stays True after either policy, for every
parameter value. -/
theorem claim_C9 : ∀ (l : List Bool) (m : Int) (d : Nat) (i : Nat),
    l.getD i false = true →
    (remove_small_False_spans l m).getD i false = true ∧
    (delay_true_spans l d).getD i false = true := by
  intro l m d i hi
  exact ⟨(remove_small_run_char l m i).mpr (Or.inl hi),
    ((delay_char l d).2 i).mpr (Or.inl hi)⟩

/-- Witness for claim C9 at a concrete sequence and parameters. -/
theorem claim_C9_witness :
    (remove_small_False_spans [false, true] 1).getD 1 false = true ∧
    (delay_true_spans [false, true] 1).getD 1 false = true :=
  claim_C9 [false, true] 1 1 1 (by decide)

/-- Claim C10: on any non-empty sequence the first span index is in bounds
whenever the guard is taken, so the function runs to completion past its
non-emptiness assert and returns a list of span lengths. -/
theorem claim_C10 : ∀ (l : List Bool) (outer : Bool), l ≠ [] →
    (0 < (spanIndices l outer).length → (spanIndices l outer).getD 0 0 < l.length) ∧
    get_lengths_of_True_spans_run l outer = Except.ok (get_lengths_of_True_spans l outer) := by
  intro l outer h
  have hlen : 0 < l.length := List.length_pos.mpr h
  constructor
  · intro hg
    cases outer with
    | true =>
      have h0 : (spanIndices l true).getD 0 0 = 0 := by
        unfold spanIndices
        rfl
      rw [h0]
      exact hlen
    | false =>
      cases hJ : jumps l with
      | nil =>
        rw [show spanIndices l false = jumps l from rfl, hJ] at hg
        simp at hg
      | cons a J2 =>
        have h0 : (spanIndices l false).getD 0 0 = a := by
          rw [show spanIndices l false = jumps l from rfl, hJ]
          rfl
        rw [h0]
        exact (jumps_mem_bounds l a (by rw [hJ]; exact List.mem_cons_self a J2)).2
  · unfold get_lengths_of_True_spans_run
    rw [if_pos hlen]

/-- Witness for claim C10 at a concrete sequence. -/
theorem claim_C10_witness :
    get_lengths_of_True_spans_run [true] true =
      Except.ok (get_lengths_of_True_spans [true] true) :=
  (claim_C10 [true] true (by decide)).2

/-!
Test vectors of test_resacf.py, re-checked against the embedding, together
with concrete evaluations of the two gap policies.
-/

example : get_lengths_of_True_spans [false, true, false, true, false] false = [1, 1] := by
  decide

example : get_lengths_of_True_spans [false, true, false, true, false] true = [1, 1] := by
  decide

example :
    get_lengths_of_True_spans [false, false, true, false, true, false, false] false =
      [1, 1] := by decide

example :
    get_lengths_of_True_spans [false, false, true, false, true, false, false] true =
      [1, 1] := by decide

example : get_lengths_of_True_spans [true, true, true, false] false = [] := by decide

example : get_lengths_of_True_spans [true, true, true, false] true = [3] := by decide

example : get_lengths_of_True_spans [false, true, true, true] false = [] := by decide

example : get_lengths_of_True_spans [false, true, true, true] true = [3] := by decide

example : get_lengths_of_True_spans [true, true, true] false = [] := by decide

example : get_lengths_of_True_spans [true, true, true] true = [3] := by decide

example : remove_small_False_spans [true, false, true] 1 = [true, true, true] := by decide

example : delay_true_spans [true, false, true, false, false, false, true] 3 =
    [true, true, true, true, false, false, true] := by decide
